import Mathlib

/-!
# go_load: streaming statistics, histograms and the control loop

A shallow embedding of `go_load.go`.

Modelling conventions
* `float64` values are rationals (`ℚ`): every statement is about exact
  arithmetic.  The one division of the program whose divisor can be zero,
  the one in `V.Result`, goes through `fdiv`, which keeps the IEEE outcomes
  "not a number" and "infinite" apart from the numeric ones.  The decay
  constant `0.999` is the decimal fraction 999/1000.
* Go's `int` is `Int`; the counters and bucket keys of the program stay far
  below the 64-bit range.
* `map[int]int` is a function `Int → Option Int`; `none` is an absent key.
* Go strings are `String`; substring operations work on the character list.
* The library function `url.Parse` is a parameter of `rewrite`; the library
  method `(*URL).String` is modelled after `net/url` as `urlString`.
-/

namespace GoLoad

/-! ## Running mean and variance -/

/-- The struct `V`: count, mean and sum of squared deviations, and the
decayed pair `_N`, `_M2`. -/
structure V where
  N : ℚ
  Mean : ℚ
  M2 : ℚ
  _N : ℚ
  _M2 : ℚ
deriving DecidableEq

/-- The zero value of `V`, as Go creates it. -/
def V.zero : V := ⟨0, 0, 0, 0, 0⟩

/-- `func (v *V) Add(x float64)`. -/
def V.Add (v : V) (x : ℚ) : V :=
  let N := v.N + 1
  let dN := v._N * (999 / 1000) + 1
  let delta := x - v.Mean
  let Mean := v.Mean + delta / N
  let t := delta * (x - Mean)
  { N := N, Mean := Mean, M2 := v.M2 + t, _N := dN, _M2 := v._M2 * (999 / 1000) + t }

/-- The outcome of a `float64` division in exact arithmetic. -/
inductive FVal where
  | num (q : ℚ)
  | inf (negative : Bool)
  | nan
deriving DecidableEq

/-- IEEE division `a / b` on exact values: a zero divisor gives NaN for a
zero dividend and an infinity otherwise. -/
def fdiv (a b : ℚ) : FVal :=
  if b = 0 then (if a = 0 then FVal.nan else FVal.inf (decide (a < 0)))
  else FVal.num (a / b)

/-- `func (v *V) Result() float64`. -/
def V.Result (v : V) : FVal := fdiv v._M2 (v._N - 1)

/-- The state after feeding the latencies `xs` one at a time through `V.Add`. -/
def V.feed (v : V) (xs : List ℚ) : V := xs.foldl V.Add v

/-! ## Histograms -/

/-- The struct `Hist`: the map `data` and the slice `keys`. -/
structure Hist where
  data : Int → Option Int
  keys : List Int

/-- The histogram of `Stats.Init`: an empty map and a nil slice. -/
def Hist.empty : Hist := ⟨fun _ => none, []⟩

/-- The map read `h.data[x]`: an absent key reads as zero. -/
def Hist.get (h : Hist) (x : Int) : Int := (h.data x).getD 0

/-- `func (h *Hist) Add(x int)`. -/
def Hist.Add (h : Hist) (x : Int) : Hist :=
  { data := fun k => if k = x then some (h.get x + 1) else h.data k
    keys := if (h.data x).isSome then h.keys else h.keys ++ [x] }

/-- The histogram after adding the values `xs` one at a time. -/
def Hist.addAll (h : Hist) (xs : List Int) : Hist := xs.foldl Hist.Add h

/-- The sum of the counts of all buckets listed in `keys`. -/
def Hist.total (h : Hist) : Int := (h.keys.map h.get).sum

/-- The verb `%d` of `fmt.Sprintf` on an `int`. -/
def fmtInt (i : Int) : String :=
  if i < 0 then "-" ++ Nat.repr i.natAbs else Nat.repr i.natAbs

/-- The white space of `unicode.IsSpace`, which `strings.TrimSpace` strips. -/
def isSpace (c : Char) : Bool :=
  c = ' ' || (9 ≤ c.toNat && c.toNat ≤ 13) || c.toNat = 0x85 || c.toNat = 0xA0 ||
  c.toNat = 0x1680 || (0x2000 ≤ c.toNat && c.toNat ≤ 0x200a) || c.toNat = 0x2028 ||
  c.toNat = 0x2029 || c.toNat = 0x202f || c.toNat = 0x205f || c.toNat = 0x3000

/-- `strings.TrimSpace` on a character list. -/
def trimSpaceChars (s : List Char) : List Char :=
  ((s.dropWhile isSpace).reverse.dropWhile isSpace).reverse

/-- `strings.TrimSpace`. -/
def trimSpace (s : String) : String := ⟨trimSpaceChars s.data⟩

/-- `sort.Ints`. -/
def sortInts (l : List Int) : List Int := l.insertionSort (· ≤ ·)

/-- One pass of the loop body of `format`:
`fmt.Sprintf("%d%s:%d ", i, unit, h.data[i])`. -/
def Hist.entry (h : Hist) (unit : String) (i : Int) : String :=
  fmtInt i ++ unit ++ ":" ++ fmtInt (h.get i) ++ " "

/-- `func (h *Hist) format(unit string) string`: the histogram with its keys
sorted in place, and the rendered string. -/
def Hist.format (h : Hist) (unit : String) : Hist × String :=
  let keys := sortInts h.keys
  let dist := keys.foldl (fun dist i => dist ++ h.entry unit i) ""
  ({ h with keys := keys }, trimSpace dist)

/-! ## Stats -/

/-- The struct `StatsItem`. -/
structure StatsItem where
  Latency : ℚ
  StatusCode : Int
deriving DecidableEq

/-- The struct `Stats`. -/
structure Stats where
  V : V
  Total : Int
  Max : ℚ
  Min : ℚ
  MsHist : Hist
  StatusHist : Hist

/-- The constant `math.MaxFloat64`, `(2^53 - 1) * 2^971`. -/
def MaxFloat64 : ℚ := (2 ^ 53 - 1) * 2 ^ 971

/-- The conversion `int(f)` of a `float64`: the fractional part is dropped. -/
def toInt (f : ℚ) : Int := if 0 ≤ f then ⌊f⌋ else ⌈f⌉

/-- The key of the latency bucket, `int(x/100)*100 + 100`. -/
def msBucket (x : ℚ) : Int := toInt (x / 100) * 100 + 100

/-- The state `sendURL` starts from: `Stats{Min: math.MaxFloat64}` followed
by `Init()`. -/
def Stats.init : Stats :=
  { V := V.zero, Total := 0, Max := 0, Min := MaxFloat64,
    MsHist := Hist.empty, StatusHist := Hist.empty }

/-- `func (s *Stats) Add(x float64, status int)`. -/
def Stats.Add (s : Stats) (x : ℚ) (status : Int) : Stats :=
  { s with
    Max := max x s.Max
    Min := min x s.Min
    V := s.V.Add x
    MsHist := s.MsHist.Add (msBucket x)
    StatusHist := s.StatusHist.Add status }

/-- The state after the samples `xs` went through `Stats.Add` in order. -/
def Stats.feed (s : Stats) (xs : List StatsItem) : Stats :=
  xs.foldl (fun s x => s.Add x.Latency x.StatusCode) s

/-- What `printStat` hands to `fmt.Printf`, argument by argument, or the
text a `fmt.Println` writes. -/
inductive Output where
  | stat (sent total : Int) (avg : ℚ) (v : FVal) (max : ℚ) (statusCodes : String)
  | line (text : String)
deriving DecidableEq

/-- `func (s *Stats) printMs()`: the state (the keys of `MsHist` are now
sorted) and the line printed. -/
def Stats.printMs (s : Stats) : Stats × Output :=
  let r := s.MsHist.format "ms"
  ({ s with MsHist := r.1 }, Output.line ("\t" ++ r.2))

/-- `func (stat *Stats) printStat()`: the state (the keys of `StatusHist` are
now sorted) and the arguments of the progress line. -/
def Stats.printStat (stat : Stats) : Stats × Output :=
  let r := stat.StatusHist.format ""
  ({ stat with StatusHist := r.1 },
    Output.stat (toInt stat.V.N) stat.Total stat.V.Mean stat.V.Result stat.Max r.2)

/-! ## The URL rewrite of the request goroutine -/

/-- The fields of the library type `url.URL`. -/
structure URL where
  Scheme : String
  Opaque : String
  User : Option (String × Option String)
  Host : String
  Path : String
  RawPath : String
  OmitHost : Bool
  ForceQuery : Bool
  RawQuery : String
  Fragment : String
  RawFragment : String
deriving DecidableEq

/-- `strings.Replace(s, old, new, 1)` on character lists: the leftmost
occurrence of `old` is replaced (an empty `old` occurs at the very start). -/
def replaceFirst (s old new : List Char) : List Char :=
  if old.isPrefixOf s then new ++ s.drop old.length
  else match s with
    | [] => []
    | c :: cs => c :: replaceFirst cs old new

/-- `strings.Replace(s, old, new, 1)`. -/
def stringsReplace1 (s old new : String) : String :=
  ⟨replaceFirst s.data old.data new.data⟩

/-! ### The library method `(*URL).String` of `net/url`

Strings are escaped byte by byte, so the model works on the UTF-8 bytes of a
string.  Only the escaping modes `String` reaches are modelled. -/

/-- The UTF-8 bytes of a character. -/
def utf8Bytes (c : Char) : List Nat :=
  let v := c.toNat
  if v < 0x80 then [v]
  else if v < 0x800 then [0xC0 + v / 64, 0x80 + v % 64]
  else if v < 0x10000 then [0xE0 + v / 4096, 0x80 + v / 64 % 64, 0x80 + v % 64]
  else [0xF0 + v / 262144, 0x80 + v / 4096 % 64, 0x80 + v / 64 % 64, 0x80 + v % 64]

/-- The bytes of a Go string. -/
def bytesOf (s : String) : List Nat := (s.data.map utf8Bytes).flatten

/-- The byte values of the characters of an ASCII string. -/
def codes (s : String) : List Nat := s.data.map Char.toNat

/-- The escaping modes of `net/url` used by `String`. -/
inductive Encoding where
  | encodePath
  | encodeHost
  | encodeUserPassword
  | encodeFragment
deriving DecidableEq

/-- The letters and digits, the first test of `shouldEscape`. -/
def isAlnum (c : Nat) : Bool :=
  (97 ≤ c && c ≤ 122) || (65 ≤ c && c ≤ 90) || (48 ≤ c && c ≤ 57)

/-- `func shouldEscape(c byte, mode encoding) bool` of `net/url`; 34 and 39
are the double and the single quote. -/
def shouldEscape (c : Nat) (mode : Encoding) : Bool :=
  if isAlnum c then false
  else if mode = Encoding.encodeHost ∧ c ∈ codes "!$&()*+,;=:[]<>" ++ [34, 39] then false
  else if c ∈ codes "-_.~" then false
  else if c ∈ codes "$&+,/:;=?@" then
    match mode with
    | Encoding.encodePath => decide (c = 63)
    | Encoding.encodeUserPassword => decide (c = 64 ∨ c = 47 ∨ c = 63 ∨ c = 58)
    | Encoding.encodeFragment => false
    | Encoding.encodeHost => true
  else if mode = Encoding.encodeFragment ∧ c ∈ codes "!()*" then false
  else true

/-- The digit `upperhex[n]`. -/
def hexDigit (n : Nat) : Char := "0123456789ABCDEF".data.getD n '0'

/-- What `escape` writes for one byte. -/
def escapeByte (mode : Encoding) (c : Nat) : List Char :=
  if shouldEscape c mode then ['%', hexDigit (c / 16), hexDigit (c % 16)] else [Char.ofNat c]

/-- `func escape(s string, mode encoding) string` of `net/url`. -/
def escape (s : String) (mode : Encoding) : String :=
  ⟨((bytesOf s).map (escapeByte mode)).flatten⟩

/-- `func validEncoded(s string, mode encoding) bool` of `net/url`. -/
def validEncoded (s : String) (mode : Encoding) : Bool :=
  (bytesOf s).all (fun c => decide (c ∈ codes "!$&()*+,;=:@[]%" ++ [39]) || !shouldEscape c mode)

/-- `func ishex(c byte) bool` of `net/url`. -/
def ishex (c : Nat) : Bool :=
  (48 ≤ c && c ≤ 57) || (97 ≤ c && c ≤ 102) || (65 ≤ c && c ≤ 70)

/-- `func unhex(c byte) byte` of `net/url`. -/
def unhex (c : Nat) : Nat :=
  if 48 ≤ c ∧ c ≤ 57 then c - 48
  else if 97 ≤ c ∧ c ≤ 102 then c - 97 + 10
  else if 65 ≤ c ∧ c ≤ 70 then c - 65 + 10
  else 0

/-- `func unescape(s string, mode encoding) (string, error)` of `net/url` in
the modes `encodePath` and `encodeFragment`, on bytes: a `%` must be followed
by two hexadecimal digits, which it is decoded with; `none` is the error. -/
def unescapeBytes : List Nat → Option (List Nat)
  | [] => some []
  | c :: rest =>
    if c = 37 then
      match rest with
      | h1 :: h2 :: rest2 =>
        if ishex h1 && ishex h2 then
          (unescapeBytes rest2).map (fun l => (unhex h1 * 16 + unhex h2) :: l)
        else none
      | _ => none
    else (unescapeBytes rest).map (fun l => c :: l)

/-- `func (u *URL) EscapedPath() string`. -/
def URL.EscapedPath (u : URL) : String :=
  if u.RawPath ≠ "" ∧ validEncoded u.RawPath Encoding.encodePath = true ∧
      unescapeBytes (bytesOf u.RawPath) = some (bytesOf u.Path) then u.RawPath
  else if u.Path = "*" then "*"
  else escape u.Path Encoding.encodePath

/-- `func (u *URL) EscapedFragment() string`. -/
def URL.EscapedFragment (u : URL) : String :=
  if u.RawFragment ≠ "" ∧ validEncoded u.RawFragment Encoding.encodeFragment = true ∧
      unescapeBytes (bytesOf u.RawFragment) = some (bytesOf u.Fragment) then u.RawFragment
  else escape u.Fragment Encoding.encodeFragment

/-- `func (u *Userinfo) String() string`: the user name and, when one is set,
the password. -/
def userinfoString (ui : String × Option String) : String :=
  match ui.2 with
  | some password =>
    escape ui.1 Encoding.encodeUserPassword ++ ":" ++ escape password Encoding.encodeUserPassword
  | none => escape ui.1 Encoding.encodeUserPassword

/-- `func (u *URL) String() string` of `net/url`. -/
def urlString (u : URL) : String :=
  let buf := if u.Scheme ≠ "" then u.Scheme ++ ":" else ""
  let buf :=
    if u.Opaque ≠ "" then buf ++ u.Opaque
    else
      let buf :=
        if u.Scheme ≠ "" ∨ u.Host ≠ "" ∨ u.User ≠ none then
          if u.OmitHost = true ∧ u.Host = "" ∧ u.User = none then buf
          else
            let buf := if u.Host ≠ "" ∨ u.Path ≠ "" ∨ u.User ≠ none then buf ++ "//" else buf
            let buf :=
              match u.User with
              | some ui => buf ++ userinfoString ui ++ "@"
              | none => buf
            if u.Host ≠ "" then buf ++ escape u.Host Encoding.encodeHost else buf
        else buf
      let path := u.EscapedPath
      let buf :=
        if path ≠ "" ∧ path.data.head? ≠ some '/' ∧ u.Host ≠ "" then buf ++ "/" else buf
      let buf :=
        if buf = "" ∧ ':' ∈ path.data.takeWhile (fun c => c ≠ '/') then buf ++ "./" else buf
      buf ++ path
  let buf := if u.ForceQuery = true ∨ u.RawQuery ≠ "" then buf ++ "?" ++ u.RawQuery else buf
  if u.Fragment ≠ "" then buf ++ "#" ++ u.EscapedFragment else buf

/-- Lines 201 to 212 of `sendURL`: the URL the request is sent to, or the
message printed when the request is dropped.  The library function
`url.Parse` and the globals `host` and `paths` are parameters. -/
def rewrite (parse : String → Except String URL)
    (host : String) (paths : List String) (r : String) : Except String String :=
  if host ≠ "" then
    match parse r with
    | Except.error err => Except.error ("parse url[" ++ r ++ "] fail: " ++ err ++ "\n")
    | Except.ok u =>
      let u := { u with Host := host }
      let u :=
        match paths with
        | [p0, p1] => { u with Path := stringsReplace1 u.Path p0 p1 }
        | _ => u
      Except.ok (urlString u)
  else Except.ok r

/-- The value `url.Parse` returns for `http://a/foo/bar`. -/
def parsedPlain : URL :=
  { Scheme := "http", Opaque := "", User := none, Host := "a", Path := "/foo/bar",
    RawPath := "", OmitHost := false, ForceQuery := false, RawQuery := "", Fragment := "",
    RawFragment := "" }

/-- The value `url.Parse` returns for `http://u:p@a:8080/foo%2Ffoo?x=foo`: the
user information is split off the host, the path is stored decoded and, as its
default encoding differs from what was written, the written form is kept in
`RawPath`. -/
def parsedEscaped : URL :=
  { Scheme := "http", Opaque := "", User := some ("u", some "p"), Host := "a:8080",
    Path := "/foo/foo", RawPath := "/foo%2Ffoo", OmitHost := false, ForceQuery := false,
    RawQuery := "x=foo", Fragment := "", RawFragment := "" }

/-- The URL the spec describes for a raw URL `scheme://authority` followed by
`path` and `rest`: the authority replaced by the host override, the leftmost
occurrence of the match in the path replaced, everything else as it was. -/
def claimedRewrite (scheme path rest host m r : String) : String :=
  scheme ++ "://" ++ host ++ stringsReplace1 path m r ++ rest

/-- No character of the string is escaped in the given mode. -/
def Unescaped (mode : Encoding) (s : String) : Prop :=
  ∀ c ∈ s.data, c.toNat < 128 ∧ shouldEscape c.toNat mode = false

/-- The path is empty or starts with a slash, as the path of a parsed URL
with an authority does. -/
def Rooted (path : String) : Prop := path = "" ∨ path.data.head? = some '/'

/-- What `String` writes after the path: the query and the fragment. -/
def urlTail (u : URL) : String :=
  (if u.ForceQuery = true ∨ u.RawQuery ≠ "" then "?" ++ u.RawQuery else "") ++
    (if u.Fragment ≠ "" then "#" ++ u.EscapedFragment else "")

/-! ## The control loop -/

/-- What the `select` of `sendURL` can receive: a tick, an outcome on
`statCh`, or a command on `ctrlChan`. -/
inductive Event where
  | tick
  | report (x : StatsItem)
  | cmd (c : String)
deriving DecidableEq

/-- The state of `sendURL`: the statistics, the lines of the URL source not
yet read from `buf`, the URLs handed to request goroutines, what the loop
printed, and whether the function has returned. -/
structure Loop where
  stat : Stats
  buf : List String
  launched : List String
  out : List Output
  returned : Bool

/-- The state `sendURL` enters its loop with. -/
def Loop.init (urls : List String) : Loop :=
  { stat := Stats.init, buf := urls, launched := [], out := [], returned := false }

/-- One iteration of the `for { select { ... } }` of `sendURL`.  Once the
function has returned nothing is received any more. -/
def Loop.step (s : Loop) (e : Event) : Loop :=
  if s.returned then s
  else
    match e with
    | Event.tick =>
      match s.buf with
      | [] => { s with returned := true }
      | u :: rest =>
        { s with
          buf := rest
          stat := { s.stat with Total := s.stat.Total + 1 }
          launched := s.launched ++ [u] }
    | Event.report x =>
      let stat := s.stat.Add x.Latency x.StatusCode
      if (toInt stat.V.N).tmod 1000 = 0 then
        let r := stat.printStat
        { s with stat := r.1, out := s.out ++ [r.2] }
      else { s with stat := stat }
    | Event.cmd c =>
      if c = "q" then
        let r1 := s.stat.printStat
        let r2 := r1.1.printMs
        { s with stat := r2.1, out := s.out ++ [r1.2, r2.2], returned := true }
      else if c = "p" then
        let r := s.stat.printMs
        { s with stat := r.1, out := s.out ++ [r.2] }
      else s

/-- The loop run over a sequence of events. -/
def Loop.run (s : Loop) (es : List Event) : Loop := es.foldl Loop.step s

/-- `func sendURL`: the loop from its initial state. -/
def sendURL (urls : List String) (es : List Event) : Loop := (Loop.init urls).run es

/-! ## Predicates used to reason about `strings.TrimSpace` -/

/-- The character list is not empty and its first character is no white space. -/
def StartsNonSpace (l : List Char) : Prop := ∃ a t, l = a :: t ∧ isSpace a = false

/-- The character list is not empty and its last character is no white space. -/
def EndsNonSpace (l : List Char) : Prop := ∃ i z, l = i ++ [z] ∧ isSpace z = false

/-- One histogram entry as the spec writes it, `<key><unit>:<count>`. -/
def entryText (unit : String) (key count : Int) : String :=
  fmtInt key ++ unit ++ ":" ++ fmtInt count

/-! ## The textbook statistics the running ones are compared with -/

/-- The arithmetic mean: the sum divided by the number of values. -/
def mean (xs : List ℚ) : ℚ := xs.sum / xs.length

/-- The sum of the squared deviations of the values from their mean (the
second pass of the two-pass algorithm). -/
def sumSqDev (xs : List ℚ) : ℚ := (xs.map (fun x => (x - mean xs) ^ 2)).sum

/-- The textbook two-pass sample variance. -/
def twoPassVariance (xs : List ℚ) : ℚ := sumSqDev xs / (xs.length - 1)

/-! ## Lemmas on the running mean and variance -/

theorem V.feed_snoc (v : V) (xs : List ℚ) (x : ℚ) :
    V.feed v (xs ++ [x]) = (V.feed v xs).Add x := by
  simp [V.feed, List.foldl_append]

theorem V.feed_N (xs : List ℚ) : (V.feed V.zero xs).N = xs.length := by
  induction xs using List.reverseRecOn with
  | nil => simp [V.feed, V.zero]
  | append_singleton xs x ih =>
    rw [V.feed_snoc]
    simp [V.Add, ih]

theorem V.feed_mean_mul (xs : List ℚ) :
    (V.feed V.zero xs).N * (V.feed V.zero xs).Mean = xs.sum := by
  induction xs using List.reverseRecOn with
  | nil => simp [V.feed, V.zero]
  | append_singleton xs x ih =>
    rw [V.feed_snoc]
    have hN := V.feed_N xs
    have hpos : ((xs.length : ℚ) + 1) ≠ 0 := by positivity
    simp only [V.Add, List.sum_append, List.sum_singleton, ← ih, hN]
    field_simp
    ring

theorem V.feed_M2 (xs : List ℚ) :
    (V.feed V.zero xs).M2 =
      (xs.map (fun x => x ^ 2)).sum - (V.feed V.zero xs).N * (V.feed V.zero xs).Mean ^ 2 := by
  induction xs using List.reverseRecOn with
  | nil => simp [V.feed, V.zero]
  | append_singleton xs x ih =>
    rw [V.feed_snoc]
    have hN := V.feed_N xs
    have hpos : ((xs.length : ℚ) + 1) ≠ 0 := by positivity
    simp only [V.Add, List.map_append, List.sum_append, List.map_cons, List.map_nil,
      List.sum_singleton, ih, hN]
    field_simp
    ring

theorem sum_sq_dev_expand (xs : List ℚ) (m : ℚ) :
    (xs.map (fun x => (x - m) ^ 2)).sum =
      (xs.map (fun x => x ^ 2)).sum - 2 * m * xs.sum + xs.length * m ^ 2 := by
  induction xs with
  | nil => simp
  | cons a xs ih =>
    simp only [List.map_cons, List.sum_cons, List.length_cons, ih]
    push_cast
    ring

theorem V.feed_mean (xs : List ℚ) (h : xs ≠ []) : (V.feed V.zero xs).Mean = mean xs := by
  have hlen : (xs.length : ℚ) ≠ 0 := by
    have : xs.length ≠ 0 := by simpa using h
    exact_mod_cast this
  have h1 := V.feed_mean_mul xs
  rw [V.feed_N] at h1
  rw [mean, eq_div_iff hlen, mul_comm]
  exact h1

theorem Stats.feed_V (s : Stats) (xs : List StatsItem) :
    (s.feed xs).V = V.feed s.V (xs.map StatsItem.Latency) := by
  induction xs generalizing s with
  | nil => rfl
  | cons a xs ih =>
    simp only [Stats.feed, List.foldl_cons, List.map_cons, V.feed] at ih ⊢
    rw [ih]
    rfl

theorem V.add_increment (v : V) (x : ℚ) (h : v.N + 1 ≠ 0) :
    (x - v.Mean) * (x - (v.Add x).Mean) = (x - v.Mean) ^ 2 * v.N / (v.N + 1) := by
  simp only [V.Add]
  field_simp
  ring

theorem V.feed_increment_nonneg (xs : List ℚ) (x : ℚ) :
    0 ≤ (x - (V.feed V.zero xs).Mean) * (x - ((V.feed V.zero xs).Add x).Mean) := by
  have hN := V.feed_N xs
  have hpos : (0 : ℚ) < (V.feed V.zero xs).N + 1 := by rw [hN]; positivity
  rw [V.add_increment _ _ (ne_of_gt hpos), hN]
  positivity

theorem V.feed_dN_range (xs : List ℚ) :
    0 ≤ (V.feed V.zero xs)._N ∧ (V.feed V.zero xs)._N < 1000 := by
  induction xs using List.reverseRecOn with
  | nil => simp [V.feed, V.zero]
  | append_singleton xs x ih =>
    rw [V.feed_snoc]
    simp only [V.Add]
    constructor <;> linarith [ih.1, ih.2]

theorem V.feed_dN_snoc (xs : List ℚ) (x : ℚ) :
    (V.feed V.zero (xs ++ [x]))._N = (V.feed V.zero xs)._N * (999 / 1000) + 1 := by
  rw [V.feed_snoc]
  rfl

theorem V.feed_dN_one_le (xs : List ℚ) (h : xs ≠ []) : 1 ≤ (V.feed V.zero xs)._N := by
  induction xs using List.reverseRecOn with
  | nil => exact absurd rfl h
  | append_singleton xs x _ =>
    rw [V.feed_dN_snoc]
    linarith [(V.feed_dN_range xs).1]

theorem V.feed_dN_one_lt (xs : List ℚ) (h : 2 ≤ xs.length) : 1 < (V.feed V.zero xs)._N := by
  induction xs using List.reverseRecOn with
  | nil => simp at h
  | append_singleton xs x _ =>
    rw [V.feed_dN_snoc]
    have hne : xs ≠ [] := by
      intro h0
      simp [h0] at h
    linarith [V.feed_dN_one_le xs hne]

theorem V.feed_dM2_nonneg (xs : List ℚ) : 0 ≤ (V.feed V.zero xs)._M2 := by
  induction xs using List.reverseRecOn with
  | nil => simp [V.feed, V.zero]
  | append_singleton xs x ih =>
    have ht := V.feed_increment_nonneg xs x
    rw [V.feed_snoc]
    simp only [V.Add] at ht ⊢
    linarith

theorem V.feed_single (x : ℚ) :
    (V.feed V.zero [x])._N = 1 ∧ (V.feed V.zero [x])._M2 = 0 := by
  simp [V.feed, V.zero, V.Add]

theorem V.feed_dN_eq_one_iff (xs : List ℚ) : (V.feed V.zero xs)._N = 1 ↔ xs.length = 1 := by
  constructor
  · intro h
    rcases Nat.lt_or_ge xs.length 2 with hlt | hge
    · match xs, hlt with
      | [], _ => simp [V.feed, V.zero] at h
      | [_], _ => rfl
    · have := V.feed_dN_one_lt xs hge
      linarith
  · intro h
    match xs, h with
    | [x], _ => exact (V.feed_single x).1

/-! ## The claims on the running mean and variance -/

/-- C1: for every finite non-empty sequence of samples fed one at a time
through `Stats.Add` from the initial state, the running count `V.N` is the
number of samples and `V.Mean` is the sum of the latencies divided by their
number. -/
theorem stats_count_and_mean (xs : List StatsItem) (h : xs ≠ []) :
    (Stats.init.feed xs).V.N = xs.length ∧
      (Stats.init.feed xs).V.Mean = (xs.map StatsItem.Latency).sum / xs.length := by
  rw [Stats.feed_V]
  have hne : xs.map StatsItem.Latency ≠ [] := by simpa using h
  refine ⟨?_, ?_⟩
  · simpa using V.feed_N (xs.map StatsItem.Latency)
  · have := V.feed_mean (xs.map StatsItem.Latency) hne
    simpa [mean] using this

theorem stats_count_and_mean_witness :
    (Stats.init.feed [⟨10, 200⟩, ⟨20, 404⟩]).V.N = ([⟨10, 200⟩, ⟨20, 404⟩] : List StatsItem).length ∧
      (Stats.init.feed [⟨10, 200⟩, ⟨20, 404⟩]).V.Mean =
        (([⟨10, 200⟩, ⟨20, 404⟩] : List StatsItem).map StatsItem.Latency).sum /
          ([⟨10, 200⟩, ⟨20, 404⟩] : List StatsItem).length :=
  stats_count_and_mean [⟨10, 200⟩, ⟨20, 404⟩] (by simp)

/-- C2: for every sequence of at least two latencies fed through `V.Add`
from the zero state, the accumulator `M2` is the two-pass sum of the squared
deviations of the latencies from their mean, and `M2 / (N - 1)` is the
textbook two-pass sample variance. -/
theorem welford_M2_two_pass (xs : List ℚ) (h : 2 ≤ xs.length) :
    (V.feed V.zero xs).M2 = sumSqDev xs ∧
      (V.feed V.zero xs).M2 / ((V.feed V.zero xs).N - 1) = twoPassVariance xs := by
  have hne : xs ≠ [] := by
    intro h0
    simp [h0] at h
  have hM2 : (V.feed V.zero xs).M2 = sumSqDev xs := by
    have hsum := V.feed_mean_mul xs
    rw [V.feed_M2, sumSqDev, sum_sq_dev_expand, ← V.feed_mean xs hne, ← hsum, V.feed_N]
    ring
  refine ⟨hM2, ?_⟩
  rw [hM2, V.feed_N, twoPassVariance]

theorem welford_M2_two_pass_witness :
    (V.feed V.zero [1, 2, 6]).M2 = sumSqDev [1, 2, 6] ∧
      (V.feed V.zero [1, 2, 6]).M2 / ((V.feed V.zero [1, 2, 6]).N - 1) =
        twoPassVariance [1, 2, 6] :=
  welford_M2_two_pass [1, 2, 6] (by decide)

/-- C10: after n >= 2 latencies fed through `V.Add` from the zero state the
decayed count satisfies 1 < `_N` < 1000 and the decayed sum `_M2` is
non-negative, so `V.Result` is the number `_M2 / (_N - 1)`, with a non-zero
divisor, and is not negative; every increment `delta * (x - newMean)` equals
`delta^2 * (N - 1) / N` for the new count `N` and is not negative. -/
theorem decayed_variance_bounds (xs : List ℚ) (h : 2 ≤ xs.length) :
    1 < (V.feed V.zero xs)._N ∧ (V.feed V.zero xs)._N < 1000 ∧
      0 ≤ (V.feed V.zero xs)._M2 ∧ (V.feed V.zero xs)._N - 1 ≠ 0 ∧
      (V.feed V.zero xs).Result = FVal.num ((V.feed V.zero xs)._M2 / ((V.feed V.zero xs)._N - 1)) ∧
      0 ≤ (V.feed V.zero xs)._M2 / ((V.feed V.zero xs)._N - 1) ∧
      ∀ (ys : List ℚ) (x : ℚ),
        (x - (V.feed V.zero ys).Mean) * (x - ((V.feed V.zero ys).Add x).Mean) =
            (x - (V.feed V.zero ys).Mean) ^ 2 * (((V.feed V.zero ys).Add x).N - 1) /
              ((V.feed V.zero ys).Add x).N ∧
          0 ≤ (x - (V.feed V.zero ys).Mean) * (x - ((V.feed V.zero ys).Add x).Mean) := by
  have h1 := V.feed_dN_one_lt xs h
  have h2 := (V.feed_dN_range xs).2
  have h3 := V.feed_dM2_nonneg xs
  have hne : (V.feed V.zero xs)._N - 1 ≠ 0 := by
    intro h0
    linarith
  refine ⟨h1, h2, h3, hne, ?_, ?_, ?_⟩
  · simp [V.Result, fdiv, hne]
  · apply div_nonneg h3
    linarith
  · intro ys x
    refine ⟨?_, V.feed_increment_nonneg ys x⟩
    have hpos : (0 : ℚ) < (V.feed V.zero ys).N + 1 := by rw [V.feed_N]; positivity
    rw [V.add_increment _ _ (ne_of_gt hpos)]
    simp [V.Add]

theorem decayed_variance_bounds_witness :
    1 < (V.feed V.zero [3, 5])._N ∧ (V.feed V.zero [3, 5]).Result = FVal.num (2000 / 999) := by
  have h := decayed_variance_bounds [3, 5] (by decide)
  refine ⟨h.1, ?_⟩
  rw [h.2.2.2.2.1]
  norm_num [V.feed, V.zero, V.Add]

/-- C5, the claim as stated fails in the initial state: no sample has been
added, the decayed count is 0 <= 1, and `V.Result` is the number 0 / (0 - 1),
not NaN. -/
theorem result_initial_not_nan :
    (V.feed V.zero [])._N ≤ 1 ∧ (V.feed V.zero []).Result = FVal.num 0 ∧
      (V.feed V.zero []).Result ≠ FVal.nan := by
  simp [V.feed, V.zero, V.Result, fdiv]

/-- C5 as amended: in every state reachable through `V.Add` from the zero
state, `V.Result` is the number `_M2 / (_N - 1)` whenever `_N` differs from 1,
which is the case after two or more samples (`_N > 1`) and in the initial
state (`_N = 0`, result 0); it is NaN exactly when `_N = 1`, that is after
exactly one sample. -/
theorem result_defined_unless_one_sample (xs : List ℚ) :
    ((V.feed V.zero xs)._N ≠ 1 →
        (V.feed V.zero xs).Result =
          FVal.num ((V.feed V.zero xs)._M2 / ((V.feed V.zero xs)._N - 1))) ∧
      ((V.feed V.zero xs)._N = 1 → (V.feed V.zero xs).Result = FVal.nan) ∧
      ((V.feed V.zero xs)._N = 1 ↔ xs.length = 1) ∧
      (1 < (V.feed V.zero xs)._N ↔ 2 ≤ xs.length) ∧
      (xs = [] → (V.feed V.zero xs)._N = 0 ∧ (V.feed V.zero xs).Result = FVal.num 0) := by
  refine ⟨?_, ?_, V.feed_dN_eq_one_iff xs, ?_, ?_⟩
  · intro hne
    have : (V.feed V.zero xs)._N - 1 ≠ 0 := fun h0 => hne (by linarith)
    simp [V.Result, fdiv, this]
  · intro h1
    have hlen := (V.feed_dN_eq_one_iff xs).1 h1
    match xs, hlen with
    | [x], _ =>
      have hs := V.feed_single x
      simp [V.Result, fdiv, hs.1, hs.2]
  · constructor
    · intro hlt
      by_contra hcon
      have hlen : xs.length < 2 := Nat.lt_of_not_ge hcon
      match xs, hlen with
      | [], _ => norm_num [V.feed, V.zero] at hlt
      | [x], _ => norm_num [(V.feed_single x).1] at hlt
    · exact V.feed_dN_one_lt xs
  · intro h0
    subst h0
    simp [V.feed, V.zero, V.Result, fdiv]

/-! ## Lemmas on histograms -/

theorem Hist.addAll_snoc (h : Hist) (xs : List Int) (x : Int) :
    h.addAll (xs ++ [x]) = (h.addAll xs).Add x := by
  simp [Hist.addAll, List.foldl_append]

theorem Hist.addAll_data (xs : List Int) (k : Int) :
    (Hist.empty.addAll xs).data k = if k ∈ xs then some (xs.count k : Int) else none := by
  induction xs using List.reverseRecOn generalizing k with
  | nil => simp [Hist.addAll, Hist.empty]
  | append_singleton xs x ih =>
    rw [Hist.addAll_snoc]
    simp only [Hist.Add, Hist.get, ih]
    by_cases hk : k = x
    · subst hk
      by_cases hm : k ∈ xs
      · simp [hm]
      · simp [hm, List.count_eq_zero_of_not_mem hm]
    · have hx : ¬ x = k := fun h => hk h.symm
      simp [hk, hx, List.count_append]

theorem Hist.addAll_get (xs : List Int) (k : Int) :
    (Hist.empty.addAll xs).get k = (xs.count k : Int) := by
  rw [Hist.get, Hist.addAll_data]
  by_cases hm : k ∈ xs
  · simp [hm]
  · simp [hm, List.count_eq_zero_of_not_mem hm]

theorem Hist.addAll_keys (xs : List Int) :
    (Hist.empty.addAll xs).keys.Nodup ∧ ∀ k, k ∈ (Hist.empty.addAll xs).keys ↔ k ∈ xs := by
  induction xs using List.reverseRecOn with
  | nil => simp [Hist.addAll, Hist.empty]
  | append_singleton xs x ih =>
    rw [Hist.addAll_snoc]
    simp only [Hist.Add, Hist.addAll_data]
    by_cases hm : x ∈ xs
    · simp only [hm, if_true, Option.isSome_some]
      refine ⟨ih.1, fun k => ?_⟩
      rw [ih.2]
      constructor
      · intro hk
        exact List.mem_append_left _ hk
      · intro hk
        rcases List.mem_append.1 hk with h1 | h1
        · exact h1
        · rw [List.mem_singleton.1 h1]
          exact hm
    · simp only [hm, if_false, Option.isSome_none]
      have hnk : x ∉ (Hist.empty.addAll xs).keys := fun h => hm ((ih.2 x).1 h)
      refine ⟨?_, fun k => ?_⟩
      · exact List.Nodup.append ih.1 (List.nodup_singleton x) (by simpa using hnk)
      · simp [List.mem_append, ih.2]

theorem Hist.addAll_keys_perm (xs : List Int) : (Hist.empty.addAll xs).keys.Perm xs.dedup := by
  rw [List.perm_ext_iff_of_nodup (Hist.addAll_keys xs).1 (List.nodup_dedup xs)]
  intro k
  rw [(Hist.addAll_keys xs).2, List.mem_dedup]

theorem Hist.addAll_total (xs : List Int) : (Hist.empty.addAll xs).total = xs.length := by
  have hfun : (Hist.empty.addAll xs).get = fun k => ((xs.count k : Nat) : Int) := by
    funext k
    exact Hist.addAll_get xs k
  have hperm := ((Hist.addAll_keys_perm xs).map (fun k => ((xs.count k : Nat) : Int))).sum_eq
  rw [Hist.total, hfun, hperm]
  have hnat := List.sum_map_count_dedup_eq_length xs
  have hcast : ((xs.dedup.map (fun k => xs.count k)).sum : Int) =
      (xs.dedup.map (fun k => ((xs.count k : Nat) : Int))).sum := by
    rw [Nat.cast_list_sum, List.map_map]
    rfl
  rw [← hcast, hnat]

theorem Stats.feed_one_more (s : Stats) (xs : List StatsItem) (a : StatsItem) :
    s.feed (xs ++ [a]) = (s.feed xs).Add a.Latency a.StatusCode := by
  simp [Stats.feed, List.foldl_append]

theorem Stats.feed_StatusHist (s : Stats) (xs : List StatsItem) :
    (s.feed xs).StatusHist = s.StatusHist.addAll (xs.map StatsItem.StatusCode) := by
  induction xs using List.reverseRecOn with
  | nil => rfl
  | append_singleton xs a ih =>
    rw [Stats.feed_one_more, List.map_append, List.map_singleton, Hist.addAll_snoc, ← ih]
    rfl

/-! ## The claims on the histograms of `Stats` -/

/-- C3: for every finite sequence of samples fed through `Stats.Add` from the
initial state and every status code c, the count `StatusHist` stores for c is
the number of samples whose status code is c, and the sum of all bucket
counts of `StatusHist` is the recorded count `V.N`.  The slice `keys` lists
every key of the map exactly once, so the sum over `keys` is the sum over all
buckets. -/
theorem status_hist_counts (xs : List StatsItem) (c : Int) :
    (Stats.init.feed xs).StatusHist.get c = (xs.countP (fun a => a.StatusCode = c) : Nat) ∧
      ((Stats.init.feed xs).StatusHist.total : ℚ) = (Stats.init.feed xs).V.N ∧
      (Stats.init.feed xs).StatusHist.keys.Nodup ∧
      ∀ k, k ∈ (Stats.init.feed xs).StatusHist.keys ↔
        ((Stats.init.feed xs).StatusHist.data k).isSome = true := by
  have hS : (Stats.init.feed xs).StatusHist =
      Hist.empty.addAll (xs.map StatsItem.StatusCode) := Stats.feed_StatusHist _ _
  have hV : (Stats.init.feed xs).V.N = xs.length := by
    rw [Stats.feed_V]
    simpa using V.feed_N (xs.map StatsItem.Latency)
  rw [hS, hV]
  refine ⟨?_, ?_, (Hist.addAll_keys _).1, fun k => ?_⟩
  · rw [Hist.addAll_get, List.count, List.countP_map]
    congr 2
  · rw [Hist.addAll_total]
    simp
  · rw [(Hist.addAll_keys _).2, Hist.addAll_data]
    by_cases hm : k ∈ xs.map StatsItem.StatusCode
    · simp only [hm, if_true, Option.isSome_some]
    · simp only [hm, if_false, Option.isSome_none]
      simp

theorem msBucket_natCast (n : ℕ) : msBucket (n : ℚ) = ((n / 100 * 100 + 100 : ℕ) : Int) := by
  have h0 : (0 : ℚ) ≤ (n : ℚ) / 100 := by positivity
  have hfl : ⌊(n : ℚ) / 100⌋ = ((n / 100 : ℕ) : Int) := by
    have := Rat.floor_natCast_div_natCast n 100
    simpa using this
  simp only [msBucket, toInt, h0, if_true, hfl]
  push_cast
  ring

/-- C4: for every latency that is a non-negative whole number n of
milliseconds, `Stats.Add` adds one to the latency bucket with key
floor(n/100)*100 + 100 and leaves every other latency bucket as it was; the
key is the only multiple b of 100 with b - 100 <= n < b; the latencies 0, 99,
100 and 250 go to the buckets 100, 100, 200 and 300. -/
theorem ms_bucket_increment (s : Stats) (n : ℕ) (status : Int) :
    msBucket (n : ℚ) = ⌊(n : ℚ) / 100⌋ * 100 + 100 ∧
      (100 : Int) ∣ msBucket (n : ℚ) ∧
      msBucket (n : ℚ) - 100 ≤ (n : Int) ∧ (n : Int) < msBucket (n : ℚ) ∧
      (∀ b : Int, 100 ∣ b → b - 100 ≤ (n : Int) → (n : Int) < b → b = msBucket (n : ℚ)) ∧
      (s.Add (n : ℚ) status).MsHist.get (msBucket (n : ℚ)) =
        s.MsHist.get (msBucket (n : ℚ)) + 1 ∧
      (∀ k : Int, k ≠ msBucket (n : ℚ) →
        (s.Add (n : ℚ) status).MsHist.data k = s.MsHist.data k ∧
          (s.Add (n : ℚ) status).MsHist.get k = s.MsHist.get k) ∧
      msBucket 0 = 100 ∧ msBucket 99 = 100 ∧ msBucket 100 = 200 ∧ msBucket 250 = 300 := by
  have hb := msBucket_natCast n
  refine ⟨?_, ?_, ?_, ?_, ?_, ?_, ?_, ?_, ?_, ?_, ?_⟩
  · have h0 : (0 : ℚ) ≤ (n : ℚ) / 100 := by positivity
    simp [msBucket, toInt, h0]
  · rw [hb]
    omega
  · rw [hb]
    omega
  · rw [hb]
    omega
  · intro b hdiv h1 h2
    rw [hb]
    omega
  · simp [Stats.Add, Hist.Add, Hist.get]
  · intro k hk
    simp [Stats.Add, Hist.Add, Hist.get, hk]
  · have := msBucket_natCast 0
    simpa using this
  · have := msBucket_natCast 99
    simpa using this
  · have := msBucket_natCast 100
    simpa using this
  · have := msBucket_natCast 250
    simpa using this

/-! ## The claims on the extremes -/

theorem Stats.feed_Max (xs : List StatsItem) :
    0 ≤ (Stats.init.feed xs).Max ∧
      (∀ a ∈ xs, a.Latency ≤ (Stats.init.feed xs).Max) ∧
      ((Stats.init.feed xs).Max = 0 ∨
        (Stats.init.feed xs).Max ∈ xs.map StatsItem.Latency) := by
  induction xs using List.reverseRecOn with
  | nil => simp [Stats.feed, Stats.init]
  | append_singleton xs a ih =>
    rw [Stats.feed_one_more]
    obtain ⟨h0, hub, hmem⟩ := ih
    simp only [Stats.Add]
    refine ⟨le_trans h0 (le_max_right _ _), ?_, ?_⟩
    · intro b hb
      rcases List.mem_append.1 hb with h1 | h1
      · exact le_trans (hub b h1) (le_max_right _ _)
      · rw [List.mem_singleton.1 h1]
        exact le_max_left _ _
    · rcases max_choice a.Latency (Stats.init.feed xs).Max with hc | hc
      · right
        rw [hc]
        simp
      · rw [hc]
        rcases hmem with h1 | h1
        · exact Or.inl h1
        · right
          rw [List.map_append]
          exact List.mem_append_left _ h1

theorem Stats.feed_Min (xs : List StatsItem) :
    (∀ a ∈ xs, (Stats.init.feed xs).Min ≤ a.Latency) ∧
      ((Stats.init.feed xs).Min = MaxFloat64 ∨
        (Stats.init.feed xs).Min ∈ xs.map StatsItem.Latency) := by
  induction xs using List.reverseRecOn with
  | nil => simp [Stats.feed, Stats.init]
  | append_singleton xs a ih =>
    rw [Stats.feed_one_more]
    obtain ⟨hlb, hmem⟩ := ih
    simp only [Stats.Add]
    refine ⟨?_, ?_⟩
    · intro b hb
      rcases List.mem_append.1 hb with h1 | h1
      · exact le_trans (min_le_right _ _) (hlb b h1)
      · rw [List.mem_singleton.1 h1]
        exact min_le_left _ _
    · rcases min_choice a.Latency (Stats.init.feed xs).Min with hc | hc
      · right
        rw [hc]
        simp
      · rw [hc]
        rcases hmem with h1 | h1
        · exact Or.inl h1
        · right
          rw [List.map_append]
          exact List.mem_append_left _ h1

/-- C9: for every finite non-empty sequence of samples as `sendURL` records
them, fed through `Stats.Add` from the state `sendURL` creates, `Max` is the
largest latency of the sequence and `Min` is the smallest.  A recorded latency
is `float64(time.Now().Sub(begin) / time.Millisecond)` (line 224): an elapsed
time, so not negative, and a `float64`, so at most `math.MaxFloat64`. -/
theorem max_min_of_recorded_samples (xs : List StatsItem) (hne : xs ≠ [])
    (hrange : ∀ a ∈ xs, 0 ≤ a.Latency ∧ a.Latency ≤ MaxFloat64) :
    (Stats.init.feed xs).Max ∈ xs.map StatsItem.Latency ∧
      (∀ a ∈ xs, a.Latency ≤ (Stats.init.feed xs).Max) ∧
      (Stats.init.feed xs).Min ∈ xs.map StatsItem.Latency ∧
      (∀ a ∈ xs, (Stats.init.feed xs).Min ≤ a.Latency) := by
  obtain ⟨_, hub, hmax⟩ := Stats.feed_Max xs
  obtain ⟨hlb, hmin⟩ := Stats.feed_Min xs
  obtain ⟨a, ha⟩ := List.exists_mem_of_ne_nil xs hne
  refine ⟨?_, hub, ?_, hlb⟩
  · rcases hmax with h1 | h1
    · have hle := hub a ha
      have heq : (Stats.init.feed xs).Max = a.Latency := by
        rw [h1] at hle ⊢
        exact le_antisymm (hrange a ha).1 hle
      rw [heq]
      exact List.mem_map_of_mem _ ha
    · exact h1
  · rcases hmin with h1 | h1
    · have hle : a.Latency ≤ (Stats.init.feed xs).Min := by
        rw [h1]
        exact (hrange a ha).2
      have heq : (Stats.init.feed xs).Min = a.Latency := le_antisymm (hlb a ha) hle
      rw [heq]
      exact List.mem_map_of_mem _ ha
    · exact h1

theorem max_min_of_recorded_samples_witness :
    (Stats.init.feed [⟨30, 200⟩, ⟨7, 500⟩]).Max ∈
        ([⟨30, 200⟩, ⟨7, 500⟩] : List StatsItem).map StatsItem.Latency ∧
      (Stats.init.feed [⟨30, 200⟩, ⟨7, 500⟩]).Min ∈
        ([⟨30, 200⟩, ⟨7, 500⟩] : List StatsItem).map StatsItem.Latency := by
  have h := max_min_of_recorded_samples [⟨30, 200⟩, ⟨7, 500⟩] (by simp)
    (by
      intro a ha
      simp only [List.mem_cons, List.mem_singleton, List.not_mem_nil, or_false] at ha
      rcases ha with h1 | h1 <;> subst h1 <;> norm_num [MaxFloat64])
  exact ⟨h.1, h.2.2.1⟩

/-! ## The control loop -/

theorem Loop.step_returned (s : Loop) (e : Event) (h : s.returned = true) : s.step e = s := by
  simp [Loop.step, h]

theorem Loop.run_returned (s : Loop) (es : List Event) (h : s.returned = true) :
    s.run es = s := by
  induction es with
  | nil => rfl
  | cons e es ih =>
    simp only [Loop.run, List.foldl_cons] at ih ⊢
    rw [Loop.step_returned s e h]
    exact ih

/-- C6, the claim as stated fails: with a source of one URL the second tick
finds the source exhausted and `sendURL` returns; the command "q" delivered
afterwards is not received, and nothing at all has been printed. -/
theorem quit_after_exhaustion_prints_nothing :
    (sendURL ["http://a/x"] [Event.tick, Event.tick, Event.cmd "q"]).out = [] ∧
      (sendURL ["http://a/x"] [Event.tick, Event.tick]).returned = true ∧
      (sendURL ["http://a/x"] [Event.tick, Event.tick, Event.cmd "q"]).launched =
        ["http://a/x"] := by
  refine ⟨rfl, rfl, rfl⟩

/-- C6 as amended: when a tick finds the URL source exhausted, `sendURL`
returns at once: no further URL is dispatched, nothing is printed (no error
and no report), and no event delivered afterwards, a "q" command included, is
received.  A "q" command received while the loop is running prints the final
report, the snapshot line followed by the latency-histogram line, and ends
the loop. -/
theorem exhaustion_ends_loop (s : Loop) (es : List Event) (hrun : s.returned = false) :
    (s.buf = [] →
        ((s.step Event.tick).run es).out = s.out ∧
          ((s.step Event.tick).run es).launched = s.launched ∧
          ((s.step Event.tick).run es).returned = true) ∧
      (s.step (Event.cmd "q")).out =
        s.out ++ [s.stat.printStat.2, s.stat.printStat.1.printMs.2] ∧
      (s.step (Event.cmd "q")).returned = true ∧
      ((s.step (Event.cmd "q")).run es).out = (s.step (Event.cmd "q")).out := by
  have hq : (s.step (Event.cmd "q")).returned = true := by simp [Loop.step, hrun]
  refine ⟨?_, ?_, hq, ?_⟩
  · intro hbuf
    have hstep : s.step Event.tick = { s with returned := true } := by
      simp [Loop.step, hrun, hbuf]
    rw [hstep, Loop.run_returned _ es rfl]
    exact ⟨rfl, rfl, rfl⟩
  · simp [Loop.step, hrun]
  · rw [Loop.run_returned _ es hq]

theorem exhaustion_ends_loop_witness :
    (((Loop.init []).step Event.tick).run [Event.cmd "q"]).out = [] ∧
      (((Loop.init []).step Event.tick).run [Event.cmd "q"]).returned = true ∧
      ((Loop.init ["http://a/x"]).step (Event.cmd "q")).out =
        [(Loop.init ["http://a/x"]).stat.printStat.2,
          (Loop.init ["http://a/x"]).stat.printStat.1.printMs.2] := by
  have h1 := exhaustion_ends_loop (Loop.init []) [Event.cmd "q"] rfl
  have h2 := exhaustion_ends_loop (Loop.init ["http://a/x"]) [] rfl
  exact ⟨(h1.1 rfl).1, (h1.1 rfl).2.2, h2.2.1⟩

/-! ## The URL rewrite -/

theorem replaceFirst_at_start (s old new : List Char) (h : old.isPrefixOf s = true) :
    replaceFirst s old new = new ++ s.drop old.length := by
  cases s <;> simp [replaceFirst, h]

theorem replaceFirst_cons (c : Char) (cs old new : List Char)
    (h : old.isPrefixOf (c :: cs) = false) :
    replaceFirst (c :: cs) old new = c :: replaceFirst cs old new := by
  rw [replaceFirst]
  simp [h]

theorem replaceFirst_leftmost (old new : List Char) (pre post s : List Char)
    (hs : s = pre ++ old ++ post)
    (hmin : ∀ pre1 post1, s = pre1 ++ old ++ post1 → pre.length ≤ pre1.length) :
    replaceFirst s old new = pre ++ new ++ post := by
  induction pre generalizing s with
  | nil =>
    have hp : old.isPrefixOf s = true := by
      rw [List.isPrefixOf_iff_prefix, hs]
      simp
    rw [replaceFirst_at_start s old new hp, hs]
    simp
  | cons c pre ih =>
    have hnp : old.isPrefixOf s = false := by
      rw [Bool.eq_false_iff]
      intro hp
      rw [List.isPrefixOf_iff_prefix] at hp
      obtain ⟨t, ht⟩ := hp
      have := hmin [] t (by simp [← ht])
      simp at this
    subst hs
    simp only [List.cons_append] at hnp ⊢
    rw [replaceFirst_cons c _ old new hnp]
    congr 1
    have := ih (pre ++ old ++ post) (by simp) (fun pre1 post1 h1 => by
      have h2 := hmin (c :: pre1) post1 (by simp [h1])
      simpa using h2)
    simpa using this

theorem replaceFirst_absent (old new s : List Char) (h : ¬ old <:+: s) :
    replaceFirst s old new = s := by
  induction s with
  | nil =>
    have hp : old.isPrefixOf [] = false := by
      rw [Bool.eq_false_iff]
      intro hp
      rw [List.isPrefixOf_iff_prefix] at hp
      exact h hp.isInfix
    rw [replaceFirst]
    simp [hp]
  | cons c cs ih =>
    have hp : old.isPrefixOf (c :: cs) = false := by
      rw [Bool.eq_false_iff]
      intro hp
      rw [List.isPrefixOf_iff_prefix] at hp
      exact h hp.isInfix
    rw [replaceFirst_cons c cs old new hp, ih]
    intro hin
    exact h (hin.trans (List.suffix_cons c cs).isInfix)

theorem escapeBytes_unescaped (mode : Encoding) (l : List Char)
    (h : ∀ c ∈ l, c.toNat < 128 ∧ shouldEscape c.toNat mode = false) :
    (((l.map utf8Bytes).flatten).map (escapeByte mode)).flatten = l := by
  induction l with
  | nil => rfl
  | cons c l ih =>
    obtain ⟨h1, h2⟩ := h c (by simp)
    have hb : utf8Bytes c = [c.toNat] := by simp [utf8Bytes, h1]
    have he : escapeByte mode c.toNat = [c] := by simp [escapeByte, h2]
    simp only [List.map_cons, List.flatten_cons, hb, List.singleton_append, he]
    rw [ih (fun d hd => h d (List.mem_cons_of_mem _ hd))]

theorem escape_unescaped (mode : Encoding) (s : String) (h : Unescaped mode s) :
    escape s mode = s := by
  apply String.ext
  exact escapeBytes_unescaped mode s.data h

theorem EscapedPath_plain (u : URL) (hraw : u.RawPath = "")
    (hp : Unescaped Encoding.encodePath u.Path) : u.EscapedPath = u.Path := by
  unfold URL.EscapedPath
  rw [if_neg (by simp [hraw])]
  split
  · rename_i hstar
    exact hstar.symm
  · exact escape_unescaped _ _ hp

theorem urlString_plain (u : URL) (hopq : u.Opaque = "") (huser : u.User = none)
    (hscheme : u.Scheme ≠ "") (hhost : u.Host ≠ "") (hraw : u.RawPath = "")
    (hH : Unescaped Encoding.encodeHost u.Host) (hP : Unescaped Encoding.encodePath u.Path)
    (hroot : Rooted u.Path) :
    urlString u = u.Scheme ++ "://" ++ u.Host ++ u.Path ++ urlTail u := by
  have hpath := EscapedPath_plain u hraw hP
  have hesc := escape_unescaped _ _ hH
  have hslash : ¬ (¬ u.Path = "" ∧ ¬ u.Path.data.head? = some '/') := by
    rintro ⟨h1, h2⟩
    rcases hroot with h3 | h3
    · exact h1 h3
    · exact h2 h3
  have hbuf : ¬ (u.Scheme ++ ":" ++ "//" ++ u.Host = "") := by
    intro h1
    have := congrArg String.data h1
    simp [String.data_append] at this
  unfold urlString urlTail
  simp only [hopq, huser, hscheme, hhost, hpath, hesc, ne_eq, not_true_eq_false,
    not_false_eq_true, if_true, if_false, true_or, or_true, and_true, and_false, hslash, hbuf, false_and]
  apply String.ext
  by_cases hq : u.ForceQuery = true ∨ ¬ u.RawQuery = "" <;>
    by_cases hf : u.Fragment = "" <;>
    simp [hq, hf, String.data_append]

/-- C7, the claim as stated fails for a URL with user information and an
escaped path.  `http://u:p@a:8080/foo%2Ffoo?x=foo` (what `String` writes for
its parsed form) with host `b` and rule (`foo`, `baz`) becomes
`http://u:p@b/baz/foo?x=foo`: the user information stays in the authority and
the `%2F` after the replaced occurrence is written as a slash, where the claim
gives `http://b/baz%2Ffoo?x=foo`. -/
theorem rewrite_keeps_userinfo_and_reencodes :
    urlString parsedEscaped = "http://u:p@a:8080/foo%2Ffoo?x=foo" ∧
      "http://u:p@a:8080/foo%2Ffoo?x=foo" =
        "http" ++ "://" ++ "u:p@a:8080" ++ "/foo%2Ffoo" ++ "?x=foo" ∧
      rewrite (fun _ => Except.ok parsedEscaped) "b" ["foo", "baz"]
          "http://u:p@a:8080/foo%2Ffoo?x=foo" =
        Except.ok "http://u:p@b/baz/foo?x=foo" ∧
      claimedRewrite "http" "/foo%2Ffoo" "?x=foo" "b" "foo" "baz" =
        "http://b/baz%2Ffoo?x=foo" ∧
      rewrite (fun _ => Except.ok parsedEscaped) "b" ["foo", "baz"]
          "http://u:p@a:8080/foo%2Ffoo?x=foo" ≠
        Except.ok (claimedRewrite "http" "/foo%2Ffoo" "?x=foo" "b" "foo" "baz") := by
  have hr : rewrite (fun _ => Except.ok parsedEscaped) "b" ["foo", "baz"]
      "http://u:p@a:8080/foo%2Ffoo?x=foo" = Except.ok "http://u:p@b/baz/foo?x=foo" := rfl
  have hc : claimedRewrite "http" "/foo%2Ffoo" "?x=foo" "b" "foo" "baz" =
      "http://b/baz%2Ffoo?x=foo" := by decide
  refine ⟨by decide, by decide, hr, hc, ?_⟩
  rw [hr, hc]
  intro h
  have h2 : "http://u:p@b/baz/foo?x=foo" = "http://b/baz%2Ffoo?x=foo" := Except.ok.inj h
  exact absurd h2 (by decide)

/-- C7 as amended: for every raw URL that `url.Parse` accepts, with a host
override set and a path rule (m, r) set, the rewrite step sets the `Host` of
the parsed URL (the host[:port] part of the authority; user information stays)
to the override, replaces only the leftmost occurrence of m in the decoded
path by r, leaving later occurrences and every other field as they were, and
sends the request to what `String` writes for that URL, which encodes the new
path afresh.  When the URL has a scheme and a host, no user information, and
hosts and paths that need no escaping, that is the URL with the authority
replaced by the override and the leftmost m in the path replaced, scheme,
query and fragment unchanged; so `http://a/foo/bar` with host `b` and rule
(`foo`, `baz`) becomes `http://b/baz/bar`. -/
theorem rewrite_sets_host_and_first_match (parse : String → Except String URL)
    (host m r raw : String) (u : URL)
    (hhost : host ≠ "") (hparse : parse raw = Except.ok u) :
    rewrite parse host [m, r] raw =
        Except.ok (urlString
          { Scheme := u.Scheme, Opaque := u.Opaque, User := u.User, Host := host,
            Path := stringsReplace1 u.Path m r, RawPath := u.RawPath, OmitHost := u.OmitHost,
            ForceQuery := u.ForceQuery, RawQuery := u.RawQuery, Fragment := u.Fragment,
            RawFragment := u.RawFragment }) ∧
      (∀ pre post : List Char, u.Path.data = pre ++ m.data ++ post →
        (∀ pre1 post1 : List Char, u.Path.data = pre1 ++ m.data ++ post1 →
          pre.length ≤ pre1.length) →
        (stringsReplace1 u.Path m r).data = pre ++ r.data ++ post) ∧
      ((¬ m.data <:+: u.Path.data) → stringsReplace1 u.Path m r = u.Path) ∧
      (u.Opaque = "" → u.User = none → u.Scheme ≠ "" → u.Host ≠ "" → u.RawPath = "" →
        Unescaped Encoding.encodeHost u.Host → Unescaped Encoding.encodeHost host →
        Unescaped Encoding.encodePath u.Path →
        Unescaped Encoding.encodePath (stringsReplace1 u.Path m r) →
        Rooted u.Path → Rooted (stringsReplace1 u.Path m r) →
        urlString u = u.Scheme ++ "://" ++ u.Host ++ u.Path ++ urlTail u ∧
          rewrite parse host [m, r] raw =
            Except.ok (claimedRewrite u.Scheme u.Path (urlTail u) host m r)) := by
  have hrw : rewrite parse host [m, r] raw =
      Except.ok (urlString
        { Scheme := u.Scheme, Opaque := u.Opaque, User := u.User, Host := host,
          Path := stringsReplace1 u.Path m r, RawPath := u.RawPath, OmitHost := u.OmitHost,
          ForceQuery := u.ForceQuery, RawQuery := u.RawQuery, Fragment := u.Fragment,
          RawFragment := u.RawFragment }) := by
    simp [rewrite, hhost, hparse]
  refine ⟨hrw, ?_, ?_, ?_⟩
  · intro pre post hs hmin
    exact replaceFirst_leftmost m.data r.data pre post u.Path.data hs hmin
  · intro habs
    simp [stringsReplace1, replaceFirst_absent m.data r.data u.Path.data habs]
  · intro hopq huser hscheme hhost0 hraw hH0 hH hP0 hP hroot0 hroot
    refine ⟨urlString_plain u hopq huser hscheme hhost0 hraw hH0 hP0 hroot0, ?_⟩
    have hnew := urlString_plain
      { Scheme := u.Scheme, Opaque := u.Opaque, User := u.User, Host := host,
        Path := stringsReplace1 u.Path m r, RawPath := u.RawPath, OmitHost := u.OmitHost,
        ForceQuery := u.ForceQuery, RawQuery := u.RawQuery, Fragment := u.Fragment,
        RawFragment := u.RawFragment }
      hopq huser hscheme hhost hraw hH hP hroot
    rw [hrw, hnew]
    rfl

theorem rewrite_sets_host_and_first_match_witness :
    rewrite (fun _ => Except.ok parsedPlain) "b" ["foo", "baz"] "http://a/foo/bar" =
      Except.ok "http://b/baz/bar" := by
  have h := (rewrite_sets_host_and_first_match (fun _ => Except.ok parsedPlain)
    "b" "foo" "baz" "http://a/foo/bar" parsedPlain (by decide) rfl).2.2.2
    rfl rfl (by decide) (by decide) rfl (by unfold Unescaped; decide)
    (by unfold Unescaped; decide) (by unfold Unescaped; decide)
    (by unfold Unescaped; decide) (by unfold Rooted; decide) (by unfold Rooted; decide)
  rw [h.2]
  exact congrArg Except.ok (by decide)

/-! ## Rendering a histogram -/

theorem digitChar_not_space (k : Nat) (h : k < 10) : isSpace (Nat.digitChar k) = false := by
  interval_cases k <;> decide

theorem toDigitsCore_not_space (fuel n : Nat) (ds : List Char)
    (h : ∀ c ∈ ds, isSpace c = false) :
    ∀ c ∈ Nat.toDigitsCore 10 fuel n ds, isSpace c = false := by
  induction fuel generalizing n ds with
  | zero => simpa [Nat.toDigitsCore] using h
  | succ f ih =>
    have hd : ∀ c ∈ Nat.digitChar (n % 10) :: ds, isSpace c = false := by
      intro c hc
      rcases List.mem_cons.1 hc with h1 | h1
      · rw [h1]
        exact digitChar_not_space _ (Nat.mod_lt _ (by decide))
      · exact h c h1
    simp only [Nat.toDigitsCore]
    split
    · exact hd
    · exact ih _ _ hd

theorem toDigitsCore_ne_nil (fuel n : Nat) (ds : List Char) (h : ds ≠ []) :
    Nat.toDigitsCore 10 fuel n ds ≠ [] := by
  induction fuel generalizing n ds with
  | zero => simpa [Nat.toDigitsCore] using h
  | succ f ih =>
    simp only [Nat.toDigitsCore]
    split
    · simp
    · exact ih _ _ (by simp)

theorem repr_chars (n : Nat) :
    (Nat.repr n).data ≠ [] ∧ ∀ c ∈ (Nat.repr n).data, isSpace c = false := by
  have hdata : (Nat.repr n).data = Nat.toDigitsCore 10 (n + 1) n [] := rfl
  rw [hdata]
  refine ⟨?_, toDigitsCore_not_space _ _ _ (by simp)⟩
  simp only [Nat.toDigitsCore]
  split
  · simp
  · exact toDigitsCore_ne_nil _ _ _ (by simp)

theorem fmtInt_chars (i : Int) :
    (fmtInt i).data ≠ [] ∧ ∀ c ∈ (fmtInt i).data, isSpace c = false := by
  obtain ⟨h1, h2⟩ := repr_chars i.natAbs
  unfold fmtInt
  split
  · refine ⟨by simp [String.data_append], ?_⟩
    intro c hc
    simp only [String.data_append, List.mem_append] at hc
    rcases hc with h3 | h3
    · have hc2 : c = '-' := by simpa using h3
      rw [hc2]
      decide
    · exact h2 c h3
  · exact ⟨h1, h2⟩

theorem fmtInt_starts (i : Int) : StartsNonSpace (fmtInt i).data := by
  obtain ⟨h1, h2⟩ := fmtInt_chars i
  match hl : (fmtInt i).data with
  | [] => exact absurd hl h1
  | a :: t => exact ⟨a, t, rfl, h2 a (by simp [hl])⟩

theorem fmtInt_ends (i : Int) : EndsNonSpace (fmtInt i).data := by
  obtain ⟨h1, h2⟩ := fmtInt_chars i
  rcases List.eq_nil_or_concat (fmtInt i).data with h0 | ⟨L, b, hL⟩
  · exact absurd h0 h1
  · rw [List.concat_eq_append] at hL
    exact ⟨L, b, hL, h2 b (by simp [hL])⟩

theorem StartsNonSpace.append {l : List Char} (h : StartsNonSpace l) (r : List Char) :
    StartsNonSpace (l ++ r) := by
  obtain ⟨a, t, hl, ha⟩ := h
  exact ⟨a, t ++ r, by simp [hl], ha⟩

theorem EndsNonSpace.prepend {l : List Char} (h : EndsNonSpace l) (r : List Char) :
    EndsNonSpace (r ++ l) := by
  obtain ⟨i, z, hl, hz⟩ := h
  exact ⟨r ++ i, z, by simp [hl], hz⟩

theorem trimSpaceChars_snoc_space (l : List Char) (hs : StartsNonSpace l)
    (he : EndsNonSpace l) : trimSpaceChars (l ++ [' ']) = l := by
  obtain ⟨a, t, hl, ha⟩ := hs
  obtain ⟨i, z, hl2, hz⟩ := he
  have h1 : (l ++ [' ']).dropWhile isSpace = l ++ [' '] := by
    rw [hl]
    simp [List.dropWhile, ha]
  have hsp : isSpace ' ' = true := by decide
  have h2 : (l ++ [' ']).reverse.dropWhile isSpace = z :: i.reverse := by
    rw [hl2]
    simp [List.dropWhile, hz, hsp]
  rw [trimSpaceChars, h1, h2, hl2]
  simp

theorem entryText_data (unit : String) (k c : Int) :
    (entryText unit k c).data = (fmtInt k).data ++ unit.data ++ [':'] ++ (fmtInt c).data := by
  simp [entryText, String.data_append]

theorem entryText_starts (unit : String) (k c : Int) :
    StartsNonSpace (entryText unit k c).data := by
  rw [entryText_data, List.append_assoc, List.append_assoc]
  exact (fmtInt_starts k).append _

theorem entryText_ends (unit : String) (k c : Int) :
    EndsNonSpace (entryText unit k c).data := by
  rw [entryText_data]
  exact (fmtInt_ends c).prepend _

theorem foldl_append_data (f : Int → String) (l : List Int) (acc : String) :
    (l.foldl (fun d i => d ++ f i) acc).data =
      acc.data ++ (l.map (fun i => (f i).data)).flatten := by
  induction l generalizing acc with
  | nil => simp
  | cons a l ih =>
    simp only [List.foldl_cons, List.map_cons, List.flatten_cons]
    rw [ih, String.data_append, List.append_assoc]

theorem intercalate_go_data (acc sep : String) (l : List String) :
    (String.intercalate.go acc sep l).data =
      acc.data ++ (l.map (fun a => sep.data ++ a.data)).flatten := by
  induction l generalizing acc with
  | nil => simp [String.intercalate.go]
  | cons a l ih =>
    simp only [String.intercalate.go, List.map_cons, List.flatten_cons]
    rw [ih, String.data_append, String.data_append]
    simp [List.append_assoc]

theorem spaced_entries (g : Int → String) (hs : ∀ i, StartsNonSpace (g i).data)
    (he : ∀ i, EndsNonSpace (g i).data) (k : Int) (ks : List Int) :
    ((g k).data ++ (ks.map (fun j => ' ' :: (g j).data)).flatten) ++ [' '] =
        ((k :: ks).map (fun i => (g i).data ++ [' '])).flatten ∧
      StartsNonSpace ((g k).data ++ (ks.map (fun j => ' ' :: (g j).data)).flatten) ∧
      EndsNonSpace ((g k).data ++ (ks.map (fun j => ' ' :: (g j).data)).flatten) := by
  induction ks generalizing k with
  | nil => simpa using ⟨hs k, he k⟩
  | cons j ks ih =>
    obtain ⟨h1, _, h3⟩ := ih j
    refine ⟨?_, (hs k).append _, ?_⟩
    · simp only [List.map_cons, List.flatten_cons] at h1 ⊢
      rw [← h1]
      simp [List.append_assoc]
    · simp only [List.map_cons, List.flatten_cons]
      have := h3.prepend ((g k).data ++ [' '])
      simpa [List.append_assoc] using this

theorem trimSpace_entries (g : Int → String) (hs : ∀ i, StartsNonSpace (g i).data)
    (he : ∀ i, EndsNonSpace (g i).data) (keys : List Int) :
    trimSpace (keys.foldl (fun d i => d ++ (g i ++ " ")) "") =
      String.intercalate " " (keys.map g) := by
  apply String.ext
  cases keys with
  | nil => simp [trimSpace, trimSpaceChars, String.intercalate]
  | cons k ks =>
    obtain ⟨h1, h2, h3⟩ := spaced_entries g hs he k ks
    have hd : ((k :: ks).foldl (fun d i => d ++ (g i ++ " ")) "").data =
        ((k :: ks).map (fun i => (g i).data ++ [' '])).flatten := by
      rw [foldl_append_data]
      simp [String.data_append]
    have hi : (String.intercalate " " ((k :: ks).map g)).data =
        (g k).data ++ (ks.map (fun j => ' ' :: (g j).data)).flatten := by
      simp only [List.map_cons, String.intercalate]
      rw [intercalate_go_data, List.map_map]
      rfl
    rw [hi]
    simp only [trimSpace]
    rw [hd, ← h1]
    exact trimSpaceChars_snoc_space _ h2 h3

theorem sortInts_sorted (l : List Int) : (sortInts l).Sorted (· ≤ ·) :=
  List.sorted_insertionSort _ l

theorem sortInts_perm (l : List Int) : (sortInts l).Perm l :=
  List.perm_insertionSort _ l

theorem sortInts_congr {l₁ l₂ : List Int} (h : l₁.Perm l₂) : sortInts l₁ = sortInts l₂ :=
  List.eq_of_perm_of_sorted (((sortInts_perm l₁).trans h).trans (sortInts_perm l₂).symm)
    (sortInts_sorted l₁) (sortInts_sorted l₂)

theorem Hist.format_addAll (xs : List Int) (unit : String) :
    ((Hist.empty.addAll xs).format unit).2 =
      String.intercalate " "
        ((sortInts xs.dedup).map (fun k => entryText unit k (xs.count k))) := by
  have hkeys : sortInts (Hist.empty.addAll xs).keys = sortInts xs.dedup :=
    sortInts_congr (Hist.addAll_keys_perm xs)
  have hentry : (fun (d : String) (i : Int) => d ++ (Hist.empty.addAll xs).entry unit i) =
      fun d i => d ++ (entryText unit i (xs.count i) ++ " ") := by
    funext d i
    rw [Hist.entry, Hist.addAll_get]
    rfl
  simp only [Hist.format]
  rw [hkeys, hentry]
  exact trimSpace_entries (fun k => entryText unit k (xs.count k))
    (fun i => entryText_starts unit i _) (fun i => entryText_ends unit i _) _

/-- C8: for every sequence xs of integers added to an empty `Hist`, `format`
renders the distinct added keys in strictly ascending order, each exactly once
as `<key><unit>:<count>` with the number of times it was added, separated by
single spaces, with no white space in front or at the end; two insertion
orders of the same values give the same string. -/
theorem format_sorted_entries (xs : List Int) (unit : String) :
    ((Hist.empty.addAll xs).format unit).2 =
        String.intercalate " "
          ((sortInts xs.dedup).map (fun k => entryText unit k (xs.count k))) ∧
      (sortInts xs.dedup).Sorted (· < ·) ∧
      (∀ k, k ∈ sortInts xs.dedup ↔ k ∈ xs) ∧
      (xs ≠ [] → StartsNonSpace ((Hist.empty.addAll xs).format unit).2.data ∧
        EndsNonSpace ((Hist.empty.addAll xs).format unit).2.data) ∧
      ∀ ys : List Int, ys.Perm xs →
        ((Hist.empty.addAll ys).format unit).2 = ((Hist.empty.addAll xs).format unit).2 := by
  have hnodup : (sortInts xs.dedup).Nodup :=
    (sortInts_perm xs.dedup).nodup_iff.2 (List.nodup_dedup xs)
  have hmem : ∀ k, k ∈ sortInts xs.dedup ↔ k ∈ xs := by
    intro k
    rw [(sortInts_perm xs.dedup).mem_iff, List.mem_dedup]
  refine ⟨Hist.format_addAll xs unit, (sortInts_sorted _).lt_of_le hnodup, hmem, ?_, ?_⟩
  · intro hne
    rw [Hist.format_addAll]
    obtain ⟨a, ha⟩ := List.exists_mem_of_ne_nil xs hne
    have hk : a ∈ sortInts xs.dedup := (hmem a).2 ha
    match hl : sortInts xs.dedup, hk with
    | k :: ks, _ =>
      have hsp := spaced_entries (fun k => entryText unit k (xs.count k))
        (fun i => entryText_starts unit i _) (fun i => entryText_ends unit i _) k ks
      have hi : (String.intercalate " "
          ((k :: ks).map (fun k => entryText unit k (xs.count k)))).data =
          (entryText unit k (xs.count k)).data ++
            (ks.map (fun j => ' ' :: (entryText unit j (xs.count j)).data)).flatten := by
        simp only [List.map_cons, String.intercalate]
        rw [intercalate_go_data, List.map_map]
        rfl
      rw [hi]
      exact ⟨hsp.2.1, hsp.2.2⟩
  · intro ys hperm
    rw [Hist.format_addAll, Hist.format_addAll, sortInts_congr hperm.dedup]
    congr 2
    funext k
    rw [hperm.count_eq]

end GoLoad
